import Mathlib

/-!
# Verification of the transit HMM essentiality analysis

A shallow embedding of the algorithmic core of `src/pytransit/analysis/hmm.py`:
the insertion-density estimator `calculate_pins`, the run-length loop and the
log-space transition matrix built in `HMMMethod.Run`, the scaled forward and
backward recursions, the log-space Viterbi decoder, and the gene-level
aggregation of `post_process_genes`.

Conventions of the embedding:
* read counts and state indices are natural numbers; probabilities and scaling
  coefficients are exact rationals (`ℚ`), except for the log-space quantities
  (transition matrix entries, Viterbi scores), which live in `ℝ`;
* the state space is fixed at `N = 4` (`Nstates = 4` in `Run`), states
  `0 = ES, 1 = GD, 2 = NE, 3 = GA`;
* Python's `ZeroDivisionError` is modelled by `Option`/`Except` return types;
* the float literal `0.0000000000001` of the zero-sum guards is modelled by the
  exact rational `1 / 10 ^ 13`;
* division by zero in `ℚ` yields `0` (Lean's convention); the statements proved
  below never depend on the junk value except where explicitly discussed.
-/

/-! ## `HMMMethod.calculate_pins` (hmm.py lines 514-526)

The loop keeps two accumulators: `non_ess_reads` (the pool) and `temp` (the
current run of zero counts).  A positive count flushes `temp` into the pool
only when the run is shorter than 10, then appends the positive count itself.
-/

/-- One iteration of the `for rd in reads` loop of `calculate_pins`: the
accumulator is the pair `(non_ess_reads, temp)`. -/
def pinsStep (acc : List ℕ × List ℕ) (rd : ℕ) : List ℕ × List ℕ :=
  if 1 ≤ rd then (acc.1 ++ (if acc.2.length < 10 then acc.2 else []) ++ [rd], [])
  else (acc.1, acc.2 ++ [rd])

/-- The pooled list `non_ess_reads` produced by the loop of `calculate_pins`. -/
def pinsPool (reads : List ℕ) : List ℕ := (reads.foldl pinsStep ([], [])).1

/-- `HMMMethod.calculate_pins`.  Returns `none` when the final division raises
`ZeroDivisionError` (empty pool), otherwise the fraction of pooled sites with
count ≥ 1. -/
def calculate_pins (reads : List ℕ) : Option ℚ :=
  if (pinsPool reads).length = 0 then none
  else some (((pinsPool reads).countP (fun rd => decide (1 ≤ rd)) : ℚ) /
    ((pinsPool reads).length : ℚ))

lemma foldl_pinsStep_ne_nil (l : List ℕ) (acc : List ℕ × List ℕ) (h : acc.1 ≠ []) :
    (l.foldl pinsStep acc).1 ≠ [] := by
  induction l generalizing acc with
  | nil => exact h
  | cons rd l ih =>
    simp only [List.foldl_cons]
    apply ih
    by_cases hrd : 1 ≤ rd <;> simp [pinsStep, hrd, h]

lemma foldl_pinsStep_zeros (l : List ℕ) (acc : List ℕ × List ℕ) (hz : ∀ z ∈ l, z = 0) :
    l.foldl pinsStep acc = (acc.1, acc.2 ++ l) := by
  induction l generalizing acc with
  | nil => simp
  | cons z l ih =>
    have hz0 : z = 0 := hz z (by simp)
    subst hz0
    simp only [List.foldl_cons]
    rw [ih _ (fun w hw => hz w (by simp [hw]))]
    simp [pinsStep]

lemma pinsPool_eq_nil_iff (reads : List ℕ) :
    pinsPool reads = [] ↔ ∀ rd ∈ reads, rd = 0 := by
  suffices h : ∀ (l : List ℕ) (acc : List ℕ × List ℕ),
      ((l.foldl pinsStep acc).1 = [] ↔ acc.1 = [] ∧ ∀ rd ∈ l, rd = 0) by
    simpa [pinsPool] using h reads ([], [])
  intro l
  induction l with
  | nil => simp
  | cons rd l ih =>
    intro acc
    by_cases hrd : 1 ≤ rd
    · simp only [List.foldl_cons, pinsStep, if_pos hrd]
      rw [ih]
      constructor
      · rintro ⟨h1, -⟩
        exact absurd h1 (by simp)
      · rintro ⟨-, hall⟩
        exact absurd (hall rd (by simp)) (by omega)
    · have hz : rd = 0 := by omega
      subst hz
      simp only [List.foldl_cons, pinsStep, if_neg hrd]
      rw [ih]
      simp

/-- C9: `calculate_pins` hits its division by zero exactly when the input holds
no count ≥ 1, and on any input with a nonzero count it returns a fraction in
`[0, 1]`. -/
theorem calculate_pins_zero_division (reads : List ℕ) :
    (calculate_pins reads = none ↔ ∀ rd ∈ reads, ¬ 1 ≤ rd)
    ∧ ∀ q : ℚ, calculate_pins reads = some q → 0 ≤ q ∧ q ≤ 1 := by
  constructor
  · unfold calculate_pins
    split_ifs with h
    · rw [List.length_eq_zero] at h
      rw [pinsPool_eq_nil_iff] at h
      simp only [true_iff]
      intro rd hrd
      have := h rd hrd
      omega
    · simp only [reduceCtorEq, false_iff, not_forall]
      have hne : ¬ ∀ rd ∈ reads, rd = 0 := by
        intro hall
        exact h (by simp [List.length_eq_zero, (pinsPool_eq_nil_iff reads).2 hall])
      push_neg at hne
      obtain ⟨rd, hmem, hrd⟩ := hne
      exact ⟨rd, hmem, by omega⟩
  · intro q hq
    unfold calculate_pins at hq
    split_ifs at hq with h
    have hlen : (0 : ℚ) < ((pinsPool reads).length : ℚ) := by
      have : 0 < (pinsPool reads).length := Nat.pos_of_ne_zero h
      exact_mod_cast this
    obtain rfl : (((pinsPool reads).countP (fun rd => decide (1 ≤ rd)) : ℚ) /
        ((pinsPool reads).length : ℚ)) = q := by
      injection hq
    constructor
    · positivity
    · rw [div_le_one hlen]
      exact_mod_cast List.countP_le_length _

/-- Witness for C9 at the concrete input `[0, 1]`. -/
theorem calculate_pins_zero_division_witness :
    0 ≤ (1 / 2 : ℚ) ∧ (1 / 2 : ℚ) ≤ 1 :=
  (calculate_pins_zero_division [0, 1]).2 (1 / 2)
    (by norm_num [calculate_pins, pinsPool, pinsStep])

/-- C10: a trailing run of zero counts is never pooled, so the result of
`calculate_pins` only depends on the prefix up to the last nonzero count. -/
theorem calculate_pins_ignores_trailing_zeros (reads zs : List ℕ)
    (hz : ∀ z ∈ zs, z = 0) :
    calculate_pins (reads ++ zs) = calculate_pins reads := by
  have hpool : pinsPool (reads ++ zs) = pinsPool reads := by
    unfold pinsPool
    rw [List.foldl_append, foldl_pinsStep_zeros zs _ hz]
  simp [calculate_pins, hpool]

/-- Witness for C10: two trailing zeros after `[1]` do not change the result. -/
theorem calculate_pins_ignores_trailing_zeros_witness :
    calculate_pins ([1] ++ [0, 0]) = calculate_pins [1] :=
  calculate_pins_ignores_trailing_zeros [1] [0, 0] (by decide)

/-- C3 counterexample: on `[0,0,1,0,0,0,0,0,0,0,0,1]` the leading run of zeros
is NOT excluded — the pool is the whole list (the run of 8 zeros before the
second nonzero and the leading run of 2 zeros are both shorter than 10, hence
both pooled), and the returned fraction is `2/12 = 1/6`. -/
theorem calculate_pins_leading_run_pooled :
    pinsPool [0, 0, 1, 0, 0, 0, 0, 0, 0, 0, 0, 1] = [0, 0, 1, 0, 0, 0, 0, 0, 0, 0, 0, 1]
    ∧ calculate_pins [0, 0, 1, 0, 0, 0, 0, 0, 0, 0, 0, 1] = some (1 / 6) := by
  constructor
  · decide
  · norm_num [calculate_pins, pinsPool, pinsStep]

/-- C3 (amended): the pooling boundary sits at run-length 10, with the opposite
orientation to the claim — a zero-run followed by a nonzero count is folded
into the pool exactly when its length is `< 10`, and discarded when its length
is `≥ 10`. -/
theorem pinsPool_run_boundary (k r : ℕ) (hr : 1 ≤ r) :
    pinsPool (List.replicate k 0 ++ [r])
      = if k < 10 then List.replicate k 0 ++ [r] else [r] := by
  unfold pinsPool
  rw [List.foldl_append, foldl_pinsStep_zeros (List.replicate k 0) _ (by simp)]
  simp only [List.foldl_cons, List.foldl_nil, pinsStep, if_pos hr,
    List.nil_append, List.length_replicate]
  split_ifs <;> simp

/-- Witness for the amended C3 at the boundary itself: a run of exactly 10
zeros is discarded. -/
theorem pinsPool_run_boundary_witness :
    pinsPool (List.replicate 10 0 ++ [1]) = [1] := by
  have h := pinsPool_run_boundary 10 1 (by decide)
  simpa using h

/-! ## `HMMMethod.post_process_genes` (hmm.py lines 530-572)

The gene-level call is computed from the per-gene tallies `n0..n3` of the
Viterbi states of the gene's sites, the site count `n = gene.n`, and the
run-length statistics `E = ExpectedRuns(n, 1-theta)`, `V = VarR(n, 1-theta)`.
`ExpectedRuns`/`VarR` live in `tnseq_tools` (an external collaborator, not in
this repository's sources), so the call function below is parameterized by `E`
and by `sqrtV`, the value `math.sqrt(V)` computed from `V`. -/

/-- Python's `int()` applied to a rational: truncation toward zero. -/
def pyInt (q : ℚ) : ℤ := q.num.tdiv (q.den : ℤ)

/-- One comparison step of Python's `max` over `(count, state)` pairs
(line 564): the accumulator is replaced exactly when the new pair is
lexicographically greater. -/
def pyMaxStep (acc x : ℕ × ℕ) : ℕ × ℕ :=
  if acc.1 < x.1 ∨ (acc.1 = x.1 ∧ acc.2 < x.2) then x else acc

/-- `max([(statedist.get(s, 0), s) for s in [0, 1, 2, 3]])[1]` (line 564):
the state index chosen by the majority vote. -/
def geneMajorityState (n0 n1 n2 n3 : ℕ) : ℕ :=
  ([(n1, 1), (n2, 2), (n3, 3)].foldl pyMaxStep (n0, 0)).2

/-- The `num2label` dictionary of `post_process_genes` (line 537); indices
outside `{0,1,2,3}` would raise `KeyError` in Python. -/
def num2label (s : ℕ) : String :=
  if s = 0 then "ES" else if s = 1 then "GD" else if s = 2 then "NE"
  else if s = 3 then "GA" else "KeyError"

/-- `statedist.get(s, 0)`: the tally of state `s` among the gene's sites. -/
def tally (n0 n1 n2 n3 : ℕ) (s : ℕ) : ℕ :=
  if s = 0 then n0 else if s = 1 then n1 else if s = 2 then n2
  else if s = 3 then n3 else 0

/-- The gene-level state call of `post_process_genes` (lines 558-569).
`sqrtV` stands for `math.sqrt(V)`. -/
def geneCall (n n0 n1 n2 n3 : ℕ) (E sqrtV : ℚ) : String :=
  if 0 < n then
    if n0 = n then "ES"
    else if pyInt (E + 3 * sqrtV) ≤ (n0 : ℤ) then "ES"
    else num2label (geneMajorityState n0 n1 n2 n3)
  else "N/A"

lemma pyMaxStep_snd_lt (a b i j : ℕ) (hij : i < j) :
    pyMaxStep (a, i) (b, j) = if a ≤ b then (b, j) else (a, i) := by
  simp only [pyMaxStep]
  rcases le_or_lt a b with hab | hab
  · rw [if_pos (by omega), if_pos hab]
  · rw [if_neg (by omega), if_neg (by omega)]

lemma geneMajorityState_spec (n0 n1 n2 n3 : ℕ) :
    (∀ s, s < 4 → tally n0 n1 n2 n3 s ≤
      tally n0 n1 n2 n3 (geneMajorityState n0 n1 n2 n3))
    ∧ (∀ s, s < 4 → tally n0 n1 n2 n3 s =
        tally n0 n1 n2 n3 (geneMajorityState n0 n1 n2 n3) →
        s ≤ geneMajorityState n0 n1 n2 n3) := by
  unfold geneMajorityState
  simp only [List.foldl_cons, List.foldl_nil,
    pyMaxStep_snd_lt n0 n1 0 1 (by omega)]
  by_cases h1 : n0 ≤ n1 <;> simp only [h1, ite_true, ite_false] <;>
  [rw [pyMaxStep_snd_lt n1 n2 1 2 (by omega)];
   rw [pyMaxStep_snd_lt n0 n2 0 2 (by omega)]] <;>
  [by_cases h2 : n1 ≤ n2; by_cases h2 : n0 ≤ n2] <;>
    simp only [h2, ite_true, ite_false] <;>
  first
  | (rw [pyMaxStep_snd_lt n2 n3 2 3 (by omega)]
     by_cases h3 : n2 ≤ n3 <;> simp only [h3, ite_true, ite_false] <;>
       constructor <;> (intro s hs; interval_cases s <;> simp [tally] <;> omega))
  | (rw [pyMaxStep_snd_lt n1 n3 1 3 (by omega)]
     by_cases h3 : n1 ≤ n3 <;> simp only [h3, ite_true, ite_false] <;>
       constructor <;> (intro s hs; interval_cases s <;> simp [tally] <;> omega))
  | (rw [pyMaxStep_snd_lt n0 n3 0 3 (by omega)]
     by_cases h3 : n0 ≤ n3 <;> simp only [h3, ite_true, ite_false] <;>
       constructor <;> (intro s hs; interval_cases s <;> simp [tally] <;> omega))

/-- C1 counterexample: gene with 4 sites, tallies `(2, 0, 2, 0)` — states ES
and NE tie at the maximal tally 2, the threshold `E + 3·sqrt(V) = 10` keeps the
override off, and the call is `"NE"`: the tie goes to the HIGHEST state index,
not (as claimed) the lowest (which would give `"ES"`). -/
theorem geneCall_tie_counterexample :
    tally 2 0 2 0 0 = 2 ∧ tally 2 0 2 0 1 = 0
    ∧ tally 2 0 2 0 2 = 2 ∧ tally 2 0 2 0 3 = 0
    ∧ geneCall 4 2 0 2 0 10 0 = "NE" := by
  have h : pyInt (10 + 3 * 0 : ℚ) = 10 := by
    have e : (10 + 3 * 0 : ℚ) = ((10 : ℤ) : ℚ) := by norm_num
    rw [e]
    simp [pyInt, Rat.num_intCast, Rat.den_intCast]
  refine ⟨by decide, by decide, by decide, by decide, ?_⟩
  rw [geneCall, if_pos (by omega), if_neg (by omega), if_neg (by rw [h]; omega)]
  decide

/-- C1 (amended): for a gene whose call falls through to the majority vote
(some site not ES, run-length override off), the call is the label of a state
with the largest tally, and a tie among maximal tallies is broken by the
HIGHEST state index among `{0, 1, 2, 3}`. -/
theorem geneCall_majority_vote (n n0 n1 n2 n3 : ℕ) (E sqrtV : ℚ)
    (hn : 0 < n) (hne : n0 ≠ n) (hlt : (n0 : ℤ) < pyInt (E + 3 * sqrtV)) :
    geneCall n n0 n1 n2 n3 E sqrtV = num2label (geneMajorityState n0 n1 n2 n3)
    ∧ (∀ s, s < 4 → tally n0 n1 n2 n3 s ≤
        tally n0 n1 n2 n3 (geneMajorityState n0 n1 n2 n3))
    ∧ (∀ s, s < 4 → tally n0 n1 n2 n3 s =
        tally n0 n1 n2 n3 (geneMajorityState n0 n1 n2 n3) →
        s ≤ geneMajorityState n0 n1 n2 n3) :=
  ⟨by rw [geneCall, if_pos hn, if_neg hne, if_neg (not_le.mpr hlt)],
   (geneMajorityState_spec n0 n1 n2 n3).1,
   (geneMajorityState_spec n0 n1 n2 n3).2⟩

/-- Witness for the amended C1: tallies `(1, 2, 0, 0)`, no tie, call `"GD"`. -/
theorem geneCall_majority_vote_witness :
    geneCall 3 1 2 0 0 10 0 = num2label (geneMajorityState 1 2 0 0)
    ∧ (∀ s, s < 4 → tally 1 2 0 0 s ≤ tally 1 2 0 0 (geneMajorityState 1 2 0 0))
    ∧ (∀ s, s < 4 → tally 1 2 0 0 s = tally 1 2 0 0 (geneMajorityState 1 2 0 0) →
        s ≤ geneMajorityState 1 2 0 0) :=
  geneCall_majority_vote 3 1 2 0 0 10 0 (by omega) (by omega)
    (by
      have e : (10 + 3 * 0 : ℚ) = ((10 : ℤ) : ℚ) := by norm_num
      rw [e]
      simp [pyInt, Rat.num_intCast, Rat.den_intCast])

/-- C2 counterexample: gene with 10 sites, tallies `(5, 0, 5, 0)`, `E = 4`,
`sqrt(V) = 1/2` (so `V = 1/4` and `E + 3·sqrt(V) = 5.5`).  Here `n0 = 5` is
strictly below `E + 3·sqrt(V)`, so by the claim no override may occur and the
majority call (`"NE"`) should stand — but the code truncates the threshold with
`int(...)` to 5 and overrides the call to `"ES"`. -/
theorem geneCall_truncation_counterexample :
    ((5 : ℚ) < 4 + 3 * (1 / 2))
    ∧ ((1 / 2 : ℚ) ^ 2 = 1 / 4)
    ∧ num2label (geneMajorityState 5 0 5 0) = "NE"
    ∧ geneCall 10 5 0 5 0 4 (1 / 2) = "ES" := by
  have h : pyInt (4 + 3 * (1 / 2) : ℚ) = 5 := by
    have e : (4 + 3 * (1 / 2) : ℚ) = 11 / 2 := by norm_num
    have h1 : ((11 : ℚ) / 2).num = 11 := by norm_num
    have h2 : ((11 : ℚ) / 2).den = 2 := by norm_num
    rw [e, pyInt, h1, h2]
    decide
  refine ⟨by norm_num, by norm_num, by decide, ?_⟩
  rw [geneCall, if_pos (by omega), if_neg (by omega), if_pos (by rw [h]; omega)]

/-- C2 (amended): for a gene with `n > 0` sites not all in state ES, the
ES override fires if and only if `n0 ≥ int(E + 3·sqrt(V))`, where `int` is
Python's truncation toward zero — the comparison is against the truncated
threshold, not against `E + 3·sqrt(V)` itself. -/
theorem geneCall_override_iff_int_threshold (n n0 n1 n2 n3 : ℕ) (E sqrtV : ℚ)
    (hn : 0 < n) (hne : n0 ≠ n) :
    (pyInt (E + 3 * sqrtV) ≤ (n0 : ℤ) → geneCall n n0 n1 n2 n3 E sqrtV = "ES")
    ∧ ((n0 : ℤ) < pyInt (E + 3 * sqrtV) →
        geneCall n n0 n1 n2 n3 E sqrtV = num2label (geneMajorityState n0 n1 n2 n3)) := by
  constructor
  · intro h
    rw [geneCall, if_pos hn, if_neg hne, if_pos h]
  · intro h
    rw [geneCall, if_pos hn, if_neg hne, if_neg (not_le.mpr h)]

/-- Witness for the amended C2: `n0 = 7` beats the truncated threshold 5, so
the raw NE majority is overridden to `"ES"`. -/
theorem geneCall_override_iff_int_threshold_witness :
    geneCall 10 7 0 3 0 4 (1 / 2) = "ES" :=
  (geneCall_override_iff_int_threshold 10 7 0 3 0 4 (1 / 2) (by omega) (by omega)).1
    (by
      have e : (4 + 3 * (1 / 2) : ℚ) = 11 / 2 := by norm_num
      have h1 : ((11 : ℚ) / 2).num = 11 := by norm_num
      have h2 : ((11 : ℚ) / 2).den = 2 := by norm_num
      rw [e, pyInt, h1, h2]
      decide)

/-! ## `HMMMethod.__init__` iteration-count fallback (hmm.py lines 189-194) -/

/-- Modelled from the spec: `base.SingleConditionMethod.__init__` (module
`base` is not among this repository's source files) stores the constructor
arguments as attributes of the new object; neither it nor `HMMMethod` defines
any attribute named `self`. -/
def baseAttributes : List String :=
  ["ctrldata", "annotation_path", "output", "replicates", "normalization",
   "LOESS", "NTerminus", "CTerminus", "wxobj"]

/-- Python attribute lookup on the freshly constructed `HMMMethod` object:
`AttributeError` when the name is not among the object's attributes. -/
def lookupAttr (name : String) : Except String Unit :=
  if name ∈ baseAttributes then Except.ok () else Except.error "AttributeError"

/-- The `try`/`except` of `HMMMethod.__init__` (lines 189-193).  `lineCount` is
`some T` when the first control file could be read (`T` non-comment lines) and
`none` when reading it raised.  The `except` branch executes
`self.self.maxiterations = 100`, whose first step is the attribute lookup
`self.self`. -/
def hmmMethodMaxiterations (lineCount : Option ℕ) : Except String ℕ :=
  match lineCount with
  | some T => Except.ok (T * 4 + 1)
  | none => (lookupAttr "self").map (fun _ => 100)

/-- C7: the fallback path of `HMMMethod.__init__` does NOT set a fixed
iteration budget of 100 — the statement `self.self.maxiterations = 100` raises
`AttributeError`, so construction with an unreadable control file raises
instead of falling back. -/
theorem hmm_init_fallback_raises :
    hmmMethodMaxiterations none = Except.error "AttributeError" := by
  simp [hmmMethodMaxiterations, lookupAttr, baseAttributes, Except.map]

/-! ## The run-length loop of `HMMMethod.Run` (hmm.py lines 304-305)

`for r in range(100): if pnon ** r < 0.01: break` — after the loop, `r` holds
the first value in `0..99` satisfying the test, and 99 (the last loop value,
not 100) when no value in `0..99` satisfies it. -/

/-- The loop, with `fuel` remaining iterations and `r` the next loop value;
when the fuel runs out the loop variable keeps its last value `r - 1`. -/
def runLoopGo (pnon : ℚ) : ℕ → ℕ → ℕ
  | 0, r => r - 1
  | fuel + 1, r => if pnon ^ r < 1 / 100 then r else runLoopGo pnon fuel (r + 1)

/-- The value of `r` after the `for r in range(100)` loop of `Run`. -/
def runLength (pnon : ℚ) : ℕ := runLoopGo pnon 100 0

lemma runLoopGo_spec (pnon : ℚ) :
    ∀ (fuel r : ℕ), 0 < fuel →
      runLoopGo pnon fuel r ≤ r + fuel - 1
      ∧ (∀ s, r ≤ s → s < runLoopGo pnon fuel r → ¬ pnon ^ s < 1 / 100)
      ∧ (pnon ^ (runLoopGo pnon fuel r) < 1 / 100
          ∨ runLoopGo pnon fuel r = r + fuel - 1) := by
  intro fuel
  induction fuel with
  | zero => intro r h; omega
  | succ fuel ih =>
    intro r _
    by_cases hc : pnon ^ r < 1 / 100
    · simp only [runLoopGo, if_pos hc]
      exact ⟨by omega, fun s hs1 hs2 => by omega, Or.inl hc⟩
    · simp only [runLoopGo, if_neg hc]
      rcases Nat.eq_zero_or_pos fuel with hf | hf
      · subst hf
        simp only [runLoopGo]
        exact ⟨by omega, fun s hs1 hs2 => by omega, Or.inr trivial⟩
      · obtain ⟨h1, h2, h3⟩ := ih (r + 1) hf
        refine ⟨by omega, fun s hs1 hs2 => ?_, ?_⟩
        · rcases eq_or_lt_of_le hs1 with rfl | hlt
          · exact hc
          · exact h2 s (by omega) hs2
        · rcases h3 with h3 | h3
          · exact Or.inl h3
          · exact Or.inr (by omega)

lemma runLoopGo_no_break (pnon : ℚ) :
    ∀ (fuel r : ℕ), (∀ s, r ≤ s → s < r + fuel → ¬ pnon ^ s < 1 / 100) →
      runLoopGo pnon fuel r = r + fuel - 1 := by
  intro fuel
  induction fuel with
  | zero => intro r _; simp [runLoopGo]
  | succ fuel ih =>
    intro r h
    simp only [runLoopGo, if_neg (h r le_rfl (by omega))]
    rw [ih (r + 1) (fun s hs1 hs2 => h s (by omega) (by omega))]
    omega

/-- C5 (amended): the run length is the smallest value in `0..99` with
`(1 − pins)^r < 0.01`; when no such value exists below the cap, the loop leaves
`r` at 99 — not 100. -/
theorem run_length_loop_spec (pnon : ℚ) :
    runLength pnon ≤ 99
    ∧ (∀ s, s < runLength pnon → ¬ pnon ^ s < 1 / 100)
    ∧ (pnon ^ (runLength pnon) < 1 / 100 ∨ runLength pnon = 99) := by
  obtain ⟨h1, h2, h3⟩ := runLoopGo_spec pnon 100 0 (by omega)
  refine ⟨by simpa [runLength] using h1, fun s hs => ?_, ?_⟩
  · exact h2 s (by omega) (by simpa [runLength] using hs)
  · simpa [runLength] using h3

/-- C5 counterexample: with `pins = 1/1000 ∈ (0, 1)` the test
`(1 − pins)^r < 0.01` fails for every `r ≤ 99`, and the loop leaves `r = 99`,
not the claimed cap of 100. -/
theorem runLength_cap_counterexample :
    (0 < (1 / 1000 : ℚ) ∧ (1 / 1000 : ℚ) < 1)
    ∧ runLength (1 - 1 / 1000) = 99 := by
  refine ⟨⟨by norm_num, by norm_num⟩, ?_⟩
  have h : ∀ s, 0 ≤ s → s < 0 + 100 → ¬ (1 - 1 / 1000 : ℚ) ^ s < 1 / 100 := by
    intro s _ hs
    rw [not_lt]
    calc (1 / 100 : ℚ) ≤ (1 - 1 / 1000) ^ 99 := by norm_num
      _ ≤ (1 - 1 / 1000) ^ s :=
        pow_le_pow_of_le_one (by norm_num) (by norm_num) (by omega)
  rw [runLength, runLoopGo_no_break _ 100 0 h]

/-! ## `forward_procedure` / `backward_procedure` (hmm.py lines 419-477)

The state space has `N = 4` states; a probability column is a `Fin 4 → ℚ`.
`forward_procedure` receives the exponentiated transition matrix.  The returned
log-likelihood `-sum(log(C))` is irrational in general and is not needed by any
claim, so the embedding returns the `alpha` columns and the scaling
coefficients `C`.  Division by zero in `ℚ` yields `0`; it arises only in the
degenerate all-zero-emission situations discussed in the theorems below, where
the Python code produces `inf`/`NaN` through the same division. -/

/-- A length-4 probability vector (one column of `alpha`, `beta` or `delta`). -/
abbrev Vec4 := Fin 4 → ℚ

/-- A 4×4 matrix. -/
abbrev Mat4 := Fin 4 → Fin 4 → ℚ

/-- The float literal `0.0000000000001` used by the zero-sum guards. -/
def floorVal : ℚ := 1 / 10 ^ 13

/-- Lines 425-428: `alpha[:,0] = PI * B(O[0])`, then `C[0] = 1/sum` and
`alpha[:,0] = C[0] * alpha[:,0]`.  Note: no zero-sum guard exists here. -/
def fwdInit (B : Fin 4 → ℕ → ℚ) (PI : Vec4) (o : ℕ) : Vec4 × ℚ :=
  let raw : Vec4 := fun i => PI i * B i o
  let c : ℚ := 1 / ∑ i, raw i
  (fun i => c * raw i, c)

/-- Lines 433-441, one iteration of the `t` loop:
`alpha[:,t] = dot(alpha[:,t-1], A) * b_o`, scaled by `C[t] = 1/sum`, and if the
scaled column sums to zero every entry is replaced by `0.0000000000001`. -/
def fwdStep (A : Mat4) (B : Fin 4 → ℕ → ℚ) (prev : Vec4) (o : ℕ) : Vec4 × ℚ :=
  let raw : Vec4 := fun j => (∑ i, prev i * A i j) * B j o
  let c : ℚ := 1 / ∑ j, raw j
  let scaled : Vec4 := fun j => raw j * c
  if (∑ j, scaled j) = 0 then (fun _ => floorVal, c) else (scaled, c)

def fwdAux (A : Mat4) (B : Fin 4 → ℕ → ℚ) : Vec4 → List ℕ → List Vec4 × List ℚ
  | _, [] => ([], [])
  | prev, o :: rest =>
    let p := fwdStep A B prev o
    let q := fwdAux A B p.1 rest
    (p.1 :: q.1, p.2 :: q.2)

/-- `HMMMethod.forward_procedure`: the list of `alpha` columns (t = 0..T−1)
and the scaling coefficients `C`. -/
def forward_procedure (A : Mat4) (B : Fin 4 → ℕ → ℚ) (PI : Vec4) (O : List ℕ) :
    List Vec4 × List ℚ :=
  match O with
  | [] => ([], [])
  | o :: rest =>
    let p := fwdInit B PI o
    let q := fwdAux A B p.1 rest
    (p.1 :: q.1, p.2 :: q.2)

/-- Lines 463-471, one iteration of the backward `t` loop (note the code reads
the emissions at `O[t]`, not `O[t+1]`): `beta[:,t] = dot(A, b_o * beta[:,t+1])`,
floored to `0.0000000000001` when it sums to zero, then scaled by `C[t]` when a
nonzero `C` was supplied. -/
def bwdStep (A : Mat4) (B : Fin 4 → ℕ → ℚ) (useC : Bool) (c : ℚ) (next : Vec4)
    (o : ℕ) : Vec4 :=
  let v : Vec4 := fun i => ∑ j, A i j * (B j o * next j)
  let v2 : Vec4 := if (∑ i, v i) = 0 then fun _ => floorVal else v
  if useC then fun i => v2 i * c else v2

def bwdAux (A : Mat4) (B : Fin 4 → ℕ → ℚ) (useC : Bool) (last : Vec4) :
    List (ℕ × ℚ) → Vec4 × List Vec4
  | [] => (last, [])
  | oc :: rest =>
    let p := bwdAux A B useC last rest
    (bwdStep A B useC oc.2 p.1 oc.1, p.1 :: p.2)

/-- `HMMMethod.backward_procedure`: the list of `beta` columns (t = 0..T−1).
`useC` models `C.any()`; the `Cpad` padding only supplies (unused) scaling
slots when `C` is the empty default, mirroring that the code never indexes `C`
in that case. -/
def backward_procedure (A : Mat4) (B : Fin 4 → ℕ → ℚ) (O : List ℕ) (C : List ℚ) :
    List Vec4 :=
  match O with
  | [] => []
  | _ :: _ =>
    let useC : Bool := C.any (fun c => decide (c ≠ 0))
    let last : Vec4 := if useC then fun _ => C.getLast?.getD 1 else fun _ => 1
    let Cpad : List ℚ := if C.isEmpty then List.replicate O.length 1 else C
    let pairs : List (ℕ × ℚ) := O.dropLast.zip Cpad
    let p := bwdAux A B useC last pairs
    p.1 :: p.2

lemma fwdAux_lengths (A : Mat4) (B : Fin 4 → ℕ → ℚ) (v : Vec4) (l : List ℕ) :
    (fwdAux A B v l).1.length = l.length ∧ (fwdAux A B v l).2.length = l.length := by
  induction l generalizing v with
  | nil => simp [fwdAux]
  | cons o rest ih => simp [fwdAux, ih]

lemma bwdAux_length (A : Mat4) (B : Fin 4 → ℕ → ℚ) (useC : Bool) (last : Vec4)
    (l : List (ℕ × ℚ)) : (bwdAux A B useC last l).2.length = l.length := by
  induction l with
  | nil => simp [bwdAux]
  | cons oc rest ih => simp [bwdAux, ih]

/-- C4 (amended): both passes always run to completion, returning full-length
alpha/beta/C arrays; an all-zero emission column triggers the `1e-13` floor in
the forward pass at positions `t ≥ 1` (the floored column is the constant
`1e-13` vector) and in the backward pass at positions `t ≤ T−2` (the floored
column is `1e-13` scaled by `C[t]` when scaling is on) — but the forward pass
has no such guard at `t = 0`. -/
theorem forward_backward_zero_floor (A : Mat4) (B : Fin 4 → ℕ → ℚ) (PI : Vec4)
    (O : List ℕ) (C : List ℚ) (hC : C.length = O.length) :
    (forward_procedure A B PI O).1.length = O.length
    ∧ (forward_procedure A B PI O).2.length = O.length
    ∧ (backward_procedure A B O C).length = O.length
    ∧ (∀ prev o, (∀ j, B j o = 0) → (fwdStep A B prev o).1 = fun _ => floorVal)
    ∧ (∀ useC c next o, (∀ j, B j o = 0) → bwdStep A B useC c next o
        = if useC then (fun _ => floorVal * c) else fun _ => floorVal) := by
  refine ⟨?_, ?_, ?_, ?_, ?_⟩
  · cases O with
    | nil => simp [forward_procedure]
    | cons o rest => simp [forward_procedure, (fwdAux_lengths A B _ rest).1]
  · cases O with
    | nil => simp [forward_procedure]
    | cons o rest => simp [forward_procedure, (fwdAux_lengths A B _ rest).2]
  · cases O with
    | nil => simp [backward_procedure]
    | cons o rest =>
      have hCfalse : C.isEmpty = false := by
        cases C with
        | nil => simp at hC
        | cons c cs => rfl
      simp only [List.length_cons] at hC
      simp [backward_procedure, hCfalse, bwdAux_length, List.length_zip,
        List.length_dropLast, hC]
  · intro prev o hB
    simp [fwdStep, hB]
  · intro useC c next o hB
    cases useC <;> simp [bwdStep, hB]

/-- Witness for the amended C4 at a concrete two-site input. -/
theorem forward_backward_zero_floor_witness :
    (forward_procedure (fun _ _ => 0) (fun _ _ => 0) (fun _ => 1) [2, 7]).1.length = 2
    ∧ (forward_procedure (fun _ _ => 0) (fun _ _ => 0) (fun _ => 1) [2, 7]).2.length = 2
    ∧ (backward_procedure (fun _ _ => 0) (fun _ _ => 0) [2, 7] [1, 1]).length = 2
    ∧ (∀ prev o, (∀ j, (fun (_ : Fin 4) (_ : ℕ) => (0 : ℚ)) j o = 0) →
        (fwdStep (fun _ _ => 0) (fun _ _ => 0) prev o).1 = fun _ => floorVal)
    ∧ (∀ useC c next o, (∀ j, (fun (_ : Fin 4) (_ : ℕ) => (0 : ℚ)) j o = 0) →
        bwdStep (fun _ _ => 0) (fun _ _ => 0) useC c next o
          = if useC then (fun _ => floorVal * c) else fun _ => floorVal) := by
  have h := forward_backward_zero_floor (fun _ _ => 0) (fun _ _ => 0) (fun _ => 1)
    [2, 7] [1, 1] rfl
  simpa using h

/-- C4 counterexample: with every emission probability zero at the single
observation, the forward pass leaves `alpha[:,0]` as the (degenerate) zero
column — the `1e-13` floor is NOT substituted at position 0 (in floating point
the same path produces `C[0] = inf` and a NaN column; either way, no floor). -/
theorem forward_no_floor_at_first_position :
    (forward_procedure (fun _ _ => 0) (fun _ _ => 0) (fun _ => 1) [5]).1
      = [fun _ => 0]
    ∧ ((fun _ => (0 : ℚ)) : Vec4) ≠ fun _ => floorVal := by
  constructor
  · simp [forward_procedure, fwdInit, fwdAux]
  · intro h
    have h0 := congrFun h 0
    norm_num [floorVal] at h0

/-! ## The transition matrix of `HMMMethod.Run` (hmm.py lines 307-312) -/

/-- The log-space transition matrix: `p` stands for `B[int(Nstates/2)](1)`
(the middle state's emission probability at count 1) and `r` for the run
length.  Diagonal `a = log1p(-p^r)`, off-diagonal
`b = r*log(p) + log(1.0/3)`. -/
noncomputable def transitionMatrix (p : ℝ) (r : ℕ) : Fin 4 → Fin 4 → ℝ :=
  fun i j => if i = j then Real.log (1 - p ^ r)
    else (r : ℝ) * Real.log p + Real.log (1 / 3)

/-- C6: for every emission value `0 < p < 1` and run length `r ≥ 1`, every row
of the exponentiated transition matrix sums to 1. -/
theorem transitionMatrix_rows_sum_to_one (p : ℝ) (r : ℕ)
    (hp0 : 0 < p) (hp1 : p < 1) (hr : 1 ≤ r) :
    ∀ i, (∑ j, Real.exp (transitionMatrix p r i j)) = 1 := by
  intro i
  have hpr0 : 0 < p ^ r := pow_pos hp0 r
  have hpr1 : p ^ r < 1 := pow_lt_one₀ hp0.le hp1 (by omega)
  have hdiag : Real.exp (Real.log (1 - p ^ r)) = 1 - p ^ r :=
    Real.exp_log (by linarith)
  have hoff : Real.exp ((r : ℝ) * Real.log p + -Real.log 3) = p ^ r / 3 := by
    rw [← sub_eq_add_neg, Real.exp_sub, ← Real.log_pow, Real.exp_log hpr0,
      Real.exp_log (by norm_num)]
  fin_cases i <;> simp [transitionMatrix, Fin.sum_univ_four, hdiag] <;>
    rw [hoff] <;> ring

/-- Witness for C6 at `p = 1/2`, `r = 1`, row 0. -/
theorem transitionMatrix_rows_sum_to_one_witness :
    (∑ j, Real.exp (transitionMatrix (1 / 2) 1 0 j)) = 1 :=
  transitionMatrix_rows_sum_to_one (1 / 2) 1 (by norm_num) (by norm_num) le_rfl 0

/-! ## `HMMMethod.viterbi` (hmm.py lines 481-511)

The decoder works in log space over `ℝ`; `A` is the log-space transition
matrix.  `numpy.argmax` resolves ties to the first (lowest) index. -/

open scoped Classical in
/-- `numpy.argmax` over a length-4 real vector: first index attaining the
maximum. -/
noncomputable def argmax4 (v : Fin 4 → ℝ) : Fin 4 :=
  if v 1 ≤ v 0 ∧ v 2 ≤ v 0 ∧ v 3 ≤ v 0 then 0
  else if v 2 ≤ v 1 ∧ v 3 ≤ v 1 then 1
  else if v 3 ≤ v 2 then 2
  else 3

/-- `nus.max(1)` for one row: the maximum of a length-4 vector. -/
noncomputable def max4 (v : Fin 4 → ℝ) : ℝ := max (max (max (v 0) (v 1)) (v 2)) (v 3)

/-- One iteration of the `t` loop (lines 491-496): the new delta column and
the backpointer column `Q[:,t]`, where `nus[i][j] = delta[j][t-1] + A[i][j]`. -/
noncomputable def vitStep (A : Fin 4 → Fin 4 → ℝ) (B : Fin 4 → ℕ → ℚ)
    (prev : Fin 4 → ℝ) (o : ℕ) : (Fin 4 → ℝ) × (Fin 4 → Fin 4) :=
  (fun i => max4 (fun j => prev j + A i j) + Real.log ((B i o : ℚ) : ℝ),
   fun i => argmax4 (fun j => prev j + A i j))

noncomputable def vitForward (A : Fin 4 → Fin 4 → ℝ) (B : Fin 4 → ℕ → ℚ) :
    (Fin 4 → ℝ) → List ℕ → (Fin 4 → ℝ) × List (Fin 4 → Fin 4)
  | d, [] => (d, [])
  | d, o :: rest =>
    let p := vitStep A B d o
    let q := vitForward A B p.1 rest
    (q.1, p.2 :: q.2)

/-- Path reconstruction (lines 501-503), `Q_opt.insert(0, Q[Q_opt[0], t+1])`,
with the backpointer columns supplied in reverse order (t = T−1 down to 1). -/
noncomputable def vitBacktrack : List (Fin 4 → Fin 4) → Fin 4 → List (Fin 4)
  | [], s => [s]
  | q :: rest, s => vitBacktrack rest (q s) ++ [s]

/-- `HMMMethod.viterbi`, returning the optimal state path `Q_opt` of length
`T`.  `delta[:,0] = log(PI) + log(B(O[0]))`. -/
noncomputable def viterbi (A : Fin 4 → Fin 4 → ℝ) (B : Fin 4 → ℕ → ℚ)
    (PI : Fin 4 → ℝ) (O : List ℕ) : List (Fin 4) :=
  match O with
  | [] => []
  | o :: rest =>
    let d0 : Fin 4 → ℝ := fun i => Real.log (PI i) + Real.log ((B i o : ℚ) : ℝ)
    let p := vitForward A B d0 rest
    vitBacktrack p.2.reverse (argmax4 p.1)

/-- The initial distribution of `Run` (lines 314-315):
`PI[0] = 0.7`, `PI[1:] = 0.3/(Nstates-1)`. -/
def PIinit : Vec4 := fun i => if i = 0 then 7 / 10 else 3 / 10 / 3

lemma PIinit_pos (i : Fin 4) : 0 < PIinit i := by
  unfold PIinit
  split_ifs <;> norm_num

/-- C8: on an observation sequence of length 1 with strictly positive emission
probabilities, the Viterbi decoder returns a path of length 1, and the forward
and backward passes return single well-defined columns: `alpha` is a single
probability vector summing to 1 with a positive scaling coefficient, and
`beta` is a single column. -/
theorem length_one_observation_ok (Alog : Fin 4 → Fin 4 → ℝ) (A : Mat4)
    (B : Fin 4 → ℕ → ℚ) (o : ℕ) (hB : ∀ i, 0 < B i o) :
    (viterbi Alog B (fun i => ((PIinit i : ℚ) : ℝ)) [o]).length = 1
    ∧ (∃ a c, forward_procedure A B PIinit [o] = ([a], [c])
        ∧ (∑ i, a i) = 1 ∧ 0 < c)
    ∧ (backward_procedure A B [o] (forward_procedure A B PIinit [o]).2).length = 1 := by
  have hs : (0 : ℚ) < ∑ i, PIinit i * B i o :=
    Finset.sum_pos (fun i _ => mul_pos (PIinit_pos i) (hB i)) ⟨0, Finset.mem_univ 0⟩
  refine ⟨by simp [viterbi, vitForward, vitBacktrack], ?_, ?_⟩
  · refine ⟨(fwdInit B PIinit o).1, (fwdInit B PIinit o).2, rfl, ?_, ?_⟩
    · show (∑ i, (1 / ∑ i, PIinit i * B i o) * (PIinit i * B i o)) = 1
      rw [← Finset.mul_sum]
      exact one_div_mul_cancel hs.ne'
    · show 0 < 1 / ∑ i, PIinit i * B i o
      positivity
  · simp [backward_procedure, bwdAux]

/-- Witness for C8 with uniform emissions `1/2` at the single observation. -/
theorem length_one_observation_ok_witness :
    (viterbi (fun _ _ => (0 : ℝ)) (fun _ _ => (1 / 2 : ℚ))
        (fun i => ((PIinit i : ℚ) : ℝ)) [3]).length = 1
    ∧ (∃ a c, forward_procedure (fun _ _ => (0 : ℚ)) (fun _ _ => (1 / 2 : ℚ))
          PIinit [3] = ([a], [c]) ∧ (∑ i, a i) = 1 ∧ 0 < c)
    ∧ (backward_procedure (fun _ _ => (0 : ℚ)) (fun _ _ => (1 / 2 : ℚ)) [3]
        (forward_procedure (fun _ _ => (0 : ℚ)) (fun _ _ => (1 / 2 : ℚ))
          PIinit [3]).2).length = 1 :=
  length_one_observation_ok (fun _ _ => 0) (fun _ _ => 0) (fun _ _ => 1 / 2) 3
    (fun i => by norm_num)

/-- Witness for the amended C5 at the concrete density `pnon = 1/2`. -/
theorem run_length_loop_spec_witness :
    runLength (1 / 2) ≤ 99
    ∧ (∀ s, s < runLength (1 / 2) → ¬ (1 / 2 : ℚ) ^ s < 1 / 100)
    ∧ ((1 / 2 : ℚ) ^ (runLength (1 / 2)) < 1 / 100 ∨ runLength (1 / 2) = 99) :=
  run_length_loop_spec (1 / 2)
